import Mathlib

/-!
Shallow embedding of `backbone/linears.py`: linear classifier-head modules
for continual learning (SimpleLinear, CosineLinear, SplitCosineLinear,
SimpleContinualLinear), together with the helpers `trunc_normal_` and
`reduce_proxies`.

Modelling conventions:
* a 2-D tensor is a `List (List α)` of rows over a linear ordered field `α`;
* framework primitives that draw random numbers (`normal_`, `kaiming_uniform_`)
  receive the stream of drawn values as an explicit function argument;
* the resampling loop of `trunc_normal_` receives a fuel bound and returns
  `none` when the loop has not exited within the bound (the Python loop would
  still be running), mirroring partiality by `Option`;
* a Python exception (a failed `assert`, a strict `load_state_dict` mismatch,
  `nn.init.constant_` applied to `None`) is modelled by `Option` with `none`
  as the raised error;
* `sqrt` and `exp` are taken as function parameters so that every definition
  stays executable; theorems that need their real meaning instantiate them
  with `Real.sqrt` and a hypothesis-free field computation.
-/

namespace LinearsSpec

variable {α : Type} [LinearOrderedField α]
variable [DecidableRel ((· ≤ ·) : α → α → Prop)]

/-- Dot product of two rows, `(u * v).sum` truncated to the shorter row. -/
def dot (u v : List α) : α := (List.zipWith (· * ·) u v).sum

/-- Model of `torch.nn.functional.linear input weight bias`: row `i`, column
`j` of the output is `dot (input i) (weight j) + bias j`; a `none` bias adds
nothing (as passing no bias does in the framework). -/
def F.linear (x : List (List α)) (w : List (List α)) (b : Option (List α)) :
    List (List α) :=
  match b with
  | some bv => x.map fun r => List.zipWith (fun wr bj => dot r wr + bj) w bv
  | none => x.map fun r => w.map fun wr => dot r wr

/-- Model of `F.normalize(_, p=2, dim=1)` on one row: divide by the clamped
euclidean norm `max ‖r‖ eps` with the framework default `eps = 1e-12`. -/
def F.normalizeRow (sqrt : α → α) (r : List α) : List α :=
  r.map fun t => t / max (sqrt ((r.map fun u => u ^ 2).sum)) (1 / 10 ^ 12)

/-- Model of `F.normalize(x, p=2, dim=1)`: rowwise `F.normalizeRow`. -/
def F.normalize (sqrt : α → α) (x : List (List α)) : List (List α) :=
  x.map (F.normalizeRow sqrt)

/-- Model of `F.softmax(_, dim=-1)` on one row. -/
def F.softmaxRow (exp : α → α) (r : List α) : List α :=
  r.map fun t => exp t / (r.map exp).sum

/-- Model of `torch.cat((t1, t2), dim=1)`: rows concatenated pairwise. -/
def F.cat2 (t1 t2 : List (List α)) : List (List α) :=
  List.zipWith (· ++ ·) t1 t2

/-- Elementwise scaling `sigma * out` of a 2-D tensor by a scalar. -/
def scale (s : α) (x : List (List α)) : List (List α) :=
  x.map fun r => r.map fun t => s * t

/-! ## trunc_normal_ -/

/-- Whether a drawn value already lies inside the truncation interval. -/
def inRangeB (a b x : α) : Bool := decide (a ≤ x) && decide (x ≤ b)

/-- One `torch.where(cond, fresh, tmp)` step of the resampling loop: entries
outside `[a, b]` are replaced by the fresh draw `nd k i j` of iteration `k`,
entries inside are kept. -/
def redraw (nd : ℕ → ℕ → ℕ → α) (a b : α) (k : ℕ) (tmp : List (List α)) :
    List (List α) :=
  tmp.enum.map fun p => p.2.enum.map fun q =>
    if inRangeB a b q.2 then q.2 else nd k p.1 q.1

/-- The `torch.sum(cond)` test: no entry of `tmp` lies outside `[a, b]`. -/
def allInRange (a b : α) (tmp : List (List α)) : Bool :=
  tmp.all fun row => row.all fun x => inRangeB a b x

/-- The `while True` resampling loop of `trunc_normal_`, bounded by fuel:
`none` means the loop had not exited after `fuel` tests. -/
def truncLoop (nd : ℕ → ℕ → ℕ → α) (a b : α) :
    ℕ → ℕ → List (List α) → Option (List (List α))
  | 0, _, _ => none
  | fuel + 1, k, tmp =>
    if allInRange a b tmp then some tmp
    else truncLoop nd a b fuel (k + 1) (redraw nd a b k tmp)

/-- Model of `trunc_normal_(tensor, mean, std, a, b)` on a `rows × cols`
tensor.  `nd mean std k i j` is the value drawn by the `k`-th call of
`.normal_(mean, std)` at position `(i, j)`; the result replaces every entry
of the input tensor, so only the shape of the input matters. -/
def trunc_normal_ (fuel : ℕ) (nd : α → α → ℕ → ℕ → ℕ → α)
    (mean std a b : α) (rows cols : ℕ) : Option (List (List α)) :=
  truncLoop (nd mean std) a b fuel 1
    ((List.range rows).map fun i => (List.range cols).map fun j =>
      nd mean std 0 i j)

/-! ## SimpleLinear -/

/-- State of a `SimpleLinear` module; `bias = none` is the
`register_parameter('bias', None)` branch. -/
structure SimpleLinear (α : Type) where
  in_features : ℕ
  out_features : ℕ
  weight : List (List α)
  bias : Option (List α)
deriving DecidableEq

/-- Model of `nn.init.constant_(t, v)`: filling `None` raises, modelled by
propagating `none`. -/
def constant_ (t : Option (List α)) (v : α) : Option (List α) :=
  t.map fun l => l.map fun _ => v

/-- Model of `nn.init.kaiming_uniform_` on a `rows × cols` weight: the drawn
values are the abstract stream `wd`. -/
def kaiming_uniform_ (wd : ℕ → ℕ → α) (rows cols : ℕ) : List (List α) :=
  (List.range rows).map fun i => (List.range cols).map fun j => wd i j

/-- Model of `SimpleLinear.reset_parameters`: kaiming-uniform weight, then
`nn.init.constant_(self.bias, 0)`, which raises when the bias is `None`. -/
def SimpleLinear.reset_parameters (wd : ℕ → ℕ → α) (m : SimpleLinear α) :
    Option (SimpleLinear α) :=
  match constant_ m.bias 0 with
  | some b =>
    some { m with weight := kaiming_uniform_ wd m.out_features m.in_features,
                  bias := some b }
  | none => none

/-- Model of `SimpleLinear.__init__(in_features, out_features, bias)`.
`wu` and `bu` are the unspecified contents of the freshly allocated tensors,
`wd` the kaiming draw stream used by `reset_parameters`. -/
def SimpleLinear.init (inF outF : ℕ) (bias : Bool)
    (wu : ℕ → ℕ → α) (bu : ℕ → α) (wd : ℕ → ℕ → α) :
    Option (SimpleLinear α) :=
  SimpleLinear.reset_parameters wd
    { in_features := inF, out_features := outF,
      weight := (List.range outF).map fun i => (List.range inF).map fun j => wu i j,
      bias := if bias then some ((List.range outF).map bu) else none }

/-- Model of `SimpleLinear.forward`: the returned dict holds one key. -/
def SimpleLinear.forward (m : SimpleLinear α) (input : List (List α)) :
    List (List α) :=
  F.linear input m.weight m.bias

/-! ## reduce_proxies -/

/-- Model of `out.view(bs, nb_classes, nb_proxy)` on one row of length
`C * P`: group `c` holds the `P` consecutive entries starting at `c * P`. -/
def viewRow (C P : ℕ) (row : List α) : List (List α) :=
  (List.range C).map fun c => (row.drop (c * P)).take P

/-- Softmax-weighted sum `(attentions * simi).sum(-1)` over one proxy group. -/
def proxySum (exp : α → α) (g : List α) : α :=
  (List.zipWith (· * ·) (F.softmaxRow exp g) g).sum

/-- Model of `reduce_proxies(out, nb_proxy)`.  The `nb_proxy == 1` branch
returns the input unchanged; otherwise `shape[1]` is read off the first row,
the failed divisibility `assert` is `none`, and each row is viewed as
`nb_classes` proxy groups reduced by a softmax-weighted sum. -/
def reduce_proxies (exp : α → α) (nb_proxy : ℕ) (out : List (List α)) :
    Option (List (List α)) :=
  if nb_proxy = 1 then some out
  else if (out.headD []).length % nb_proxy = 0 then
    some (out.map fun row =>
      (viewRow ((out.headD []).length / nb_proxy) nb_proxy row).map
        (proxySum exp))
  else none

/-! ## CosineLinear -/

/-- State of a `CosineLinear` module.  `out_features` already includes the
proxy factor, as in the constructor. -/
structure CosineLinear (α : Type) where
  in_features : ℕ
  out_features : ℕ
  nb_proxy : ℕ
  to_reduce : Bool
  weight : List (List α)
  sigma : Option α
deriving DecidableEq

/-- Model of `CosineLinear.__init__` followed by `reset_parameters`:
the weight entries are the abstract uniform draw stream `wd` and sigma is
filled with `1` when present. -/
def CosineLinear.init (inF outF P : ℕ) (toReduce sigmaFlag : Bool)
    (wd : ℕ → ℕ → α) : CosineLinear α :=
  { in_features := inF, out_features := outF * P, nb_proxy := P,
    to_reduce := toReduce,
    weight := (List.range (outF * P)).map fun i =>
      (List.range inF).map fun j => wd i j,
    sigma := if sigmaFlag then some 1 else none }

/-- Model of `CosineLinear.forward`: cosine scores of the normalized input
against the normalized weight, optionally proxy-reduced (which can raise),
optionally scaled by sigma. -/
def CosineLinear.forward (sqrt exp : α → α) (m : CosineLinear α)
    (input : List (List α)) : Option (List (List α)) := do
  let out := F.linear (F.normalize sqrt input) (F.normalize sqrt m.weight) none
  let out ← if m.to_reduce then reduce_proxies exp m.nb_proxy out else pure out
  pure (match m.sigma with
        | some s => scale s out
        | none => out)

/-! ## SplitCosineLinear -/

/-- State of a `SplitCosineLinear` module: two cosine sublayers and an
optional shared sigma. -/
structure SplitCosineLinear (α : Type) where
  in_features : ℕ
  out_features : ℕ
  nb_proxy : ℕ
  fc1 : CosineLinear α
  fc2 : CosineLinear α
  sigma : Option α
deriving DecidableEq

/-- Model of `SplitCosineLinear.__init__`: both sublayers are built with
`to_reduce = False` and `sigma = False`; the shared sigma is filled with 1
when present. -/
def SplitCosineLinear.init (inF outF1 outF2 P : ℕ) (sigmaFlag : Bool)
    (wd1 wd2 : ℕ → ℕ → α) : SplitCosineLinear α :=
  { in_features := inF, out_features := (outF1 + outF2) * P, nb_proxy := P,
    fc1 := CosineLinear.init inF outF1 P false false wd1,
    fc2 := CosineLinear.init inF outF2 P false false wd2,
    sigma := if sigmaFlag then some 1 else none }

/-- The three entries of the dict returned by `SplitCosineLinear.forward`. -/
structure SplitOut (α : Type) where
  old_scores : List (List α)
  new_scores : List (List α)
  logits : List (List α)
deriving DecidableEq

/-- Model of `SplitCosineLinear.forward`. -/
def SplitCosineLinear.forward (sqrt exp : α → α) (m : SplitCosineLinear α)
    (x : List (List α)) : Option (SplitOut α) := do
  let out1 ← CosineLinear.forward sqrt exp m.fc1 x
  let out2 ← CosineLinear.forward sqrt exp m.fc2 x
  let out ← reduce_proxies exp m.nb_proxy (F.cat2 out1 out2)
  let out := match m.sigma with
             | some s => scale s out
             | none => out
  let oldScores ← reduce_proxies exp m.nb_proxy out1
  let newScores ← reduce_proxies exp m.nb_proxy out2
  pure { old_scores := oldScores, new_scores := newScores, logits := out }

/-! ## SimpleContinualLinear -/

/-- One `nn.Linear` parameter pair inside a head, with the values and the
`requires_grad` flag of each parameter tensor. -/
structure LinLayer (α : Type) where
  weight : List (List α)
  bias : List α
  weightRG : Bool
  biasRG : Bool
deriving DecidableEq

/-- One `nn.LayerNorm` parameter pair inside a head. -/
structure LNLayer (α : Type) where
  weight : List α
  bias : List α
  weightRG : Bool
  biasRG : Bool
deriving DecidableEq

/-- One head of `SimpleContinualLinear`: an `nn.Sequential` of an optional
`nn.LayerNorm` followed by an `nn.Linear`. -/
structure Head (α : Type) where
  norm : Option (LNLayer α)
  fc : LinLayer α
deriving DecidableEq

/-- The `state_dict` image of an `nn.Linear`: values only, no grad flags. -/
structure LinSD (α : Type) where
  weight : List (List α)
  bias : List α
deriving DecidableEq

/-- The `state_dict` image of an `nn.LayerNorm`. -/
structure LNSD (α : Type) where
  weight : List α
  bias : List α
deriving DecidableEq

/-- The `state_dict` image of one head. -/
structure HeadSD (α : Type) where
  norm : Option (LNSD α)
  fc : LinSD α
deriving DecidableEq

/-- State of a `SimpleContinualLinear` module.  `old_state_dict = none`
means `backup` has not been called yet (the attribute does not exist). -/
structure SimpleContinualLinear (α : Type) where
  embed_dim : ℕ
  feat_expand : Bool
  with_norm : Bool
  heads : List (Head α)
  old_state_dict : Option (List (HeadSD α))
deriving DecidableEq

/-- A freshly constructed `nn.LayerNorm(embed_dim)`: weight of ones, bias of
zeros, both trainable. -/
def freshLN (embedDim : ℕ) : LNLayer α :=
  { weight := List.replicate embedDim 1, bias := List.replicate embedDim 0,
    weightRG := true, biasRG := true }

/-- A fresh head as built by `__init__` and `update`: optional fresh
layer norm, then a linear layer whose weight comes out of `trunc_normal_`
with `std = 0.02` and whose bias is constant zero; fails when the
`trunc_normal_` loop does not exit within the fuel bound. -/
def freshHead (fuel : ℕ) (nd : α → α → ℕ → ℕ → ℕ → α)
    (withNorm : Bool) (embedDim nbClasses : ℕ) : Option (Head α) :=
  (trunc_normal_ fuel nd 0 (1 / 50) (-2) 2 nbClasses embedDim).map fun w =>
    { norm := if withNorm then some (freshLN embedDim) else none,
      fc := { weight := w, bias := List.replicate nbClasses 0,
              weightRG := true, biasRG := true } }

/-- Model of `SimpleContinualLinear.__init__(embed_dim, nb_classes,
feat_expand, with_norm)`: a single fresh head. -/
def SimpleContinualLinear.init (embedDim nbClasses : ℕ)
    (featExpand withNorm : Bool) (fuel : ℕ) (nd : α → α → ℕ → ℕ → ℕ → α) :
    Option (SimpleContinualLinear α) :=
  (freshHead fuel nd withNorm embedDim nbClasses).map fun h =>
    { embed_dim := embedDim, feat_expand := featExpand, with_norm := withNorm,
      heads := [h], old_state_dict := none }

/-- Setting `requires_grad = False` on every parameter of a head, as the
`freeze_old` loop of `update` does. -/
def freezeHead (h : Head α) : Head α :=
  { norm := h.norm.map fun ln => { ln with weightRG := false, biasRG := false },
    fc := { h.fc with weightRG := false, biasRG := false } }

/-- Model of `SimpleContinualLinear.update(nb_classes, freeze_old)`: build a
fresh head, optionally freeze every existing parameter, append the new head. -/
def SimpleContinualLinear.update (s : SimpleContinualLinear α)
    (nbClasses : ℕ) (freezeOld : Bool) (fuel : ℕ)
    (nd : α → α → ℕ → ℕ → ℕ → α) : Option (SimpleContinualLinear α) :=
  (freshHead fuel nd s.with_norm s.embed_dim nbClasses).map fun h =>
    { s with heads :=
        (if freezeOld then s.heads.map freezeHead else s.heads) ++ [h] }

/-- Successive `update` calls, oldest first. -/
def applyUpdates (fuel : ℕ) (nd : α → α → ℕ → ℕ → ℕ → α) :
    SimpleContinualLinear α → List (ℕ × Bool) →
    Option (SimpleContinualLinear α)
  | s, [] => some s
  | s, (c, fo) :: rest =>
    (s.update c fo fuel nd).bind fun s2 => applyUpdates fuel nd s2 rest

/-- The `state_dict()` image of one head: parameter values, stripped of
grad flags. -/
def headSD (h : Head α) : HeadSD α :=
  { norm := h.norm.map fun ln => { weight := ln.weight, bias := ln.bias },
    fc := { weight := h.fc.weight, bias := h.fc.bias } }

/-- The `state_dict()` of a `SimpleContinualLinear`: per-head values. -/
def stateDict (s : SimpleContinualLinear α) : List (HeadSD α) :=
  s.heads.map headSD

/-- Model of `backup()`: store a deep copy of the current `state_dict`.  In
this functional model the stored snapshot is a value, so the deep-copy part
of `deepcopy(self.state_dict())` is automatic. -/
def SimpleContinualLinear.backup (s : SimpleContinualLinear α) :
    SimpleContinualLinear α :=
  { s with old_state_dict := some (stateDict s) }

/-- The key-and-shape compatibility check of a strict `load_state_dict` for
one head: same presence of the layer norm, and identical tensor sizes. -/
def headCompat (h : Head α) (sd : HeadSD α) : Bool :=
  (match h.norm, sd.norm with
   | some ln, some lnsd =>
     decide (ln.weight.length = lnsd.weight.length) &&
     decide (ln.bias.length = lnsd.bias.length)
   | none, none => true
   | _, _ => false) &&
  decide (h.fc.weight.length = sd.fc.weight.length) &&
  decide (h.fc.weight.map List.length = sd.fc.weight.map List.length) &&
  decide (h.fc.bias.length = sd.fc.bias.length)

/-- Whole-module compatibility of a strict `load_state_dict`: the same keys
(same number of heads, matching structure) and matching sizes. -/
def sclCompat (heads : List (Head α)) (sd : List (HeadSD α)) : Bool :=
  decide (heads.length = sd.length) &&
  (List.zip heads sd).all fun p => headCompat p.1 p.2

/-- Loading stored values into one head: values are overwritten, grad flags
are untouched, as `param.data.copy_` is. -/
def loadHead (h : Head α) (sd : HeadSD α) : Head α :=
  { norm := match h.norm, sd.norm with
            | some ln, some lnsd =>
              some { ln with weight := lnsd.weight, bias := lnsd.bias }
            | _, _ => h.norm,
    fc := { h.fc with weight := sd.fc.weight, bias := sd.fc.bias } }

/-- Model of a strict `load_state_dict`: `none` is the raised mismatch
error (missing or unexpected keys, or size mismatch). -/
def loadStateDict (s : SimpleContinualLinear α) (sd : List (HeadSD α)) :
    Option (SimpleContinualLinear α) :=
  if sclCompat s.heads sd then
    some { s with heads := (List.zip s.heads sd).map fun p => loadHead p.1 p.2 }
  else none

/-- Model of `recall()`: load the stored snapshot; `none` covers both a
missing `backup` (attribute error) and a strict-load mismatch. -/
def SimpleContinualLinear.recall (s : SimpleContinualLinear α) :
    Option (SimpleContinualLinear α) :=
  match s.old_state_dict with
  | some sd => loadStateDict s sd
  | none => none

/-- `nn.LayerNorm` forward on one row: biased mean and variance over the
last dimension, framework default `eps = 1e-5`, then the affine pair. -/
def lnForwardRow (sqrt : α → α) (γ β : List α) (r : List α) : List α :=
  List.zipWith (· + ·)
    (List.zipWith (· * ·)
      (r.map fun t =>
        (t - r.sum / (r.length : α)) /
          sqrt ((r.map fun u => (u - r.sum / (r.length : α)) ^ 2).sum /
                  (r.length : α) + 1 / 10 ^ 5))
      γ)
    β

/-- One head applied to its input: optional layer norm, then the linear. -/
def headForward (sqrt : α → α) (h : Head α) (x : List (List α)) :
    List (List α) :=
  F.linear
    (match h.norm with
     | some ln => x.map (lnForwardRow sqrt ln.weight ln.bias)
     | none => x)
    h.fc.weight (some h.fc.bias)

/-- Model of `torch.cat(outs, dim=1)` over the list of per-head outputs. -/
def catDim1 : List (List (List α)) → List (List α)
  | [] => []
  | [t] => t
  | t :: ts => List.zipWith (· ++ ·) t (catDim1 ts)

/-- Model of `SimpleContinualLinear.forward`.  `xs` is the per-head input
family read when `feat_expand` is set (`x[ti]`), `x` the shared input
otherwise; the result is the `logits` entry of the returned dict. -/
def SimpleContinualLinear.forward (sqrt : α → α)
    (s : SimpleContinualLinear α) (xs : ℕ → List (List α))
    (x : List (List α)) : List (List α) :=
  catDim1 (s.heads.enum.map fun p =>
    headForward sqrt p.2 (if s.feat_expand then xs p.1 else x))

/-! ## Lemmas about trunc_normal_ -/

lemma inRangeB_iff (a b x : α) : inRangeB a b x = true ↔ a ≤ x ∧ x ≤ b := by
  simp [inRangeB]

/-- Every entry of `tmp` is one of the drawn values at its own position. -/
def drawsProp (nd : ℕ → ℕ → ℕ → α) (tmp : List (List α)) : Prop :=
  ∀ i, (hi : i < tmp.length) → ∀ j, (hj : j < (tmp.get ⟨i, hi⟩).length) →
    ∃ m, (tmp.get ⟨i, hi⟩).get ⟨j, hj⟩ = nd m i j

lemma enum_map_snd_comp {β γ : Type} (l : List β) (f : β → γ) :
    (l.enum.map fun p => f p.2) = l.map f := by
  rw [show (fun p : ℕ × β => f p.2) = f ∘ Prod.snd from rfl, ← List.map_map,
    List.enum_map_snd]

lemma redraw_map_length (nd : ℕ → ℕ → ℕ → α) (a b : α) (k : ℕ)
    (tmp : List (List α)) :
    (redraw nd a b k tmp).map List.length = tmp.map List.length := by
  have h1 : (redraw nd a b k tmp).map List.length =
      tmp.enum.map fun p => p.2.length := by
    simp [redraw, List.map_map, Function.comp]
  rw [h1, enum_map_snd_comp tmp List.length]

lemma redraw_getElem (nd : ℕ → ℕ → ℕ → α) (a b : α) (k i j : ℕ)
    (tmp : List (List α)) (hi : i < tmp.length)
    (hi2 : i < (redraw nd a b k tmp).length)
    (hj : j < (tmp.get ⟨i, hi⟩).length)
    (hj2 : j < ((redraw nd a b k tmp).get ⟨i, hi2⟩).length) :
    ((redraw nd a b k tmp).get ⟨i, hi2⟩).get ⟨j, hj2⟩ =
      if inRangeB a b ((tmp.get ⟨i, hi⟩).get ⟨j, hj⟩)
      then (tmp.get ⟨i, hi⟩).get ⟨j, hj⟩ else nd k i j := by
  simp [redraw, List.getElem_enum]

lemma drawsProp_redraw (nd : ℕ → ℕ → ℕ → α) (a b : α) (k : ℕ)
    (tmp : List (List α)) (h : drawsProp nd tmp) :
    drawsProp nd (redraw nd a b k tmp) := by
  intro i hi j hj
  have hlen : (redraw nd a b k tmp).length = tmp.length := by
    have := redraw_map_length nd a b k tmp
    simpa using congrArg List.length this
  have hi0 : i < tmp.length := hlen ▸ hi
  have hrow : ((redraw nd a b k tmp).get ⟨i, hi⟩).length =
      (tmp.get ⟨i, hi0⟩).length := by
    simp [redraw, List.getElem_enum]
  have hj0 : j < (tmp.get ⟨i, hi0⟩).length := hrow ▸ hj
  rw [redraw_getElem nd a b k i j tmp hi0 hi hj0 hj]
  by_cases hc : inRangeB a b ((tmp.get ⟨i, hi0⟩).get ⟨j, hj0⟩)
  · rw [if_pos hc]; exact h i hi0 j hj0
  · rw [if_neg hc]; exact ⟨k, rfl⟩

lemma allInRange_spec (a b : α) (tmp : List (List α))
    (h : allInRange a b tmp = true) :
    ∀ row ∈ tmp, ∀ x ∈ row, a ≤ x ∧ x ≤ b := by
  intro row hrow x hx
  have := (List.all_eq_true.mp h) row hrow
  have := (List.all_eq_true.mp this) x hx
  exact (inRangeB_iff a b x).mp this

lemma truncLoop_some_spec (nd : ℕ → ℕ → ℕ → α) (a b : α) :
    ∀ (fuel k : ℕ) (tmp t : List (List α)),
      truncLoop nd a b fuel k tmp = some t →
      allInRange a b t = true ∧ t.map List.length = tmp.map List.length ∧
        (drawsProp nd tmp → drawsProp nd t) := by
  intro fuel
  induction fuel with
  | zero => intro k tmp t h; simp [truncLoop] at h
  | succ n ih =>
    intro k tmp t h
    rw [truncLoop] at h
    by_cases hc : allInRange a b tmp
    · simp [hc] at h
      subst h
      exact ⟨hc, rfl, fun hd => hd⟩
    · simp [hc] at h
      obtain ⟨h1, h2, h3⟩ := ih (k + 1) (redraw nd a b k tmp) t h
      exact ⟨h1, h2.trans (redraw_map_length nd a b k tmp),
        fun hd => h3 (drawsProp_redraw nd a b k tmp hd)⟩

/-- Shape, range and provenance of a successful `trunc_normal_` run, shared
by several claims. -/
lemma trunc_normal_some_spec (fuel : ℕ) (nd : α → α → ℕ → ℕ → ℕ → α)
    (mean std a b : α) (rows cols : ℕ) (t : List (List α))
    (h : trunc_normal_ fuel nd mean std a b rows cols = some t) :
    t.length = rows ∧ (∀ row ∈ t, row.length = cols) ∧
      (∀ row ∈ t, ∀ x ∈ row, a ≤ x ∧ x ≤ b) ∧ drawsProp (nd mean std) t := by
  obtain ⟨h1, h2, h3⟩ := truncLoop_some_spec (nd mean std) a b fuel 1 _ t h
  have hinit : (((List.range rows).map fun i => (List.range cols).map fun j =>
      nd mean std 0 i j).map List.length) = List.replicate rows cols := by
    simp [List.map_map, Function.comp_def, List.map_const']
  rw [hinit] at h2
  have hlen : t.length = rows := by
    have := congrArg List.length h2
    simpa using this
  have hrows : ∀ row ∈ t, row.length = cols := by
    intro row hrow
    have : row.length ∈ t.map List.length := List.mem_map_of_mem _ hrow
    rw [h2] at this
    exact List.eq_of_mem_replicate this
  refine ⟨hlen, hrows, allInRange_spec a b t h1, ?_⟩
  apply h3
  intro i hi j hj
  refine ⟨0, ?_⟩
  simp [List.getElem_range]

/-! ## Lemmas about reduce_proxies -/

lemma segment_eq_map_range (row : List α) (n P : ℕ) (h : n + P ≤ row.length) :
    (row.drop n).take P = (List.range P).map fun p => row.getD (n + p) 0 := by
  apply List.ext_getElem
  · simp
    omega
  · intro i hi1 hi2
    have hi : i < P := by simpa using hi2
    have hb : n + i < row.length := by omega
    rw [List.getElem_take, List.getElem_drop, List.getElem_map,
      List.getElem_range, List.getD_eq_getElem row 0 hb]

/-- C7: whenever `trunc_normal_` returns, the returned tensor has the shape
of the input tensor, every element lies in the closed interval `[a, b]`, and
every element is one of the values drawn at its own position: out-of-range
draws are resampled, never clipped to the bounds. -/
theorem C7_trunc_normal_range (fuel : ℕ) (nd : α → α → ℕ → ℕ → ℕ → α)
    (mean std a b : α) (rows cols : ℕ) (t : List (List α))
    (h : trunc_normal_ fuel nd mean std a b rows cols = some t) :
    t.length = rows ∧ (∀ row ∈ t, row.length = cols) ∧
      (∀ row ∈ t, ∀ x ∈ row, a ≤ x ∧ x ≤ b) ∧ drawsProp (nd mean std) t :=
  trunc_normal_some_spec fuel nd mean std a b rows cols t h

/-- Witness for C7 at a concrete run that returns after one test. -/
theorem C7_trunc_normal_range_witness :
    ([[(0 : ℚ)]].length = 1) ∧ (∀ row ∈ [[(0 : ℚ)]], row.length = 1) ∧
      (∀ row ∈ [[(0 : ℚ)]], ∀ x ∈ row, (-2 : ℚ) ≤ x ∧ x ≤ 2) ∧
      drawsProp (fun _ _ _ => (0 : ℚ)) [[(0 : ℚ)]] :=
  C7_trunc_normal_range 1 (fun _ _ _ _ _ => (0 : ℚ)) 0 1 (-2) 2 1 1 [[0]]
    (by decide)

/-- C9: constructing `SimpleLinear` with `bias = false` always raises, since
`reset_parameters` unconditionally applies a constant fill to the absent
bias; with `bias = true` construction succeeds. -/
theorem C9_simple_linear_bias_false_fails (inF outF : ℕ) (wu : ℕ → ℕ → α)
    (bu : ℕ → α) (wd : ℕ → ℕ → α) :
    SimpleLinear.init inF outF false wu bu wd = none ∧
      (SimpleLinear.init inF outF true wu bu wd).isSome := by
  constructor
  · simp [SimpleLinear.init, SimpleLinear.reset_parameters, constant_]
  · simp [SimpleLinear.init, SimpleLinear.reset_parameters, constant_]

/-- C10: for `nb_proxy` at least two, `reduce_proxies` hits the Shape-error
assert exactly when the second dimension is not divisible by `nb_proxy`;
under divisibility it returns normally. -/
theorem C10_reduce_proxies_assert (exp : α → α) (P : ℕ) (hP : 2 ≤ P)
    (out : List (List α)) :
    reduce_proxies exp P out = none ↔ ¬ P ∣ (out.headD []).length := by
  have hP1 : P ≠ 1 := by omega
  unfold reduce_proxies
  rw [if_neg hP1]
  by_cases hd : (out.headD []).length % P = 0
  · rw [if_pos hd]
    exact iff_of_false (by simp)
      (not_not_intro (Nat.dvd_iff_mod_eq_zero.mpr hd))
  · rw [if_neg hd]
    exact iff_of_true rfl fun hc => hd (Nat.dvd_iff_mod_eq_zero.mp hc)

/-- Witness for C10 at a concrete three-column input and two proxies. -/
theorem C10_reduce_proxies_assert_witness :
    reduce_proxies (fun x : ℚ => x) 2 [[1, 2, 3]] = none ↔
      ¬ 2 ∣ (([[(1 : ℚ), 2, 3]]).headD []).length :=
  C10_reduce_proxies_assert (fun x : ℚ => x) 2 (by norm_num) [[1, 2, 3]]

/-- C6: `reduce_proxies` with one proxy returns its input unchanged; with
`nb_proxy` at least two and rows of length `C * nb_proxy` it returns a
`bs × C` tensor whose `(i, c)` entry is the softmax-weighted sum of the
`nb_proxy` per-proxy similarities of class `c` of row `i`. -/
theorem C6_reduce_proxies_formula (exp : α → α) (out : List (List α))
    (C P : ℕ) (hP : 2 ≤ P) (hrow : ∀ row ∈ out, row.length = C * P) :
    reduce_proxies exp 1 out = some out ∧
    ∃ res, reduce_proxies exp P out = some res ∧
      res.length = out.length ∧ (∀ row ∈ res, row.length = C) ∧
      ∀ i c, i < out.length → c < C →
        (res.getD i []).getD c 0 =
          (List.zipWith (· * ·)
            (F.softmaxRow exp ((List.range P).map fun p =>
              (out.getD i []).getD (c * P + p) 0))
            ((List.range P).map fun p =>
              (out.getD i []).getD (c * P + p) 0)).sum := by
  have hP1 : P ≠ 1 := by omega
  have hP0 : 0 < P := by omega
  refine ⟨by simp [reduce_proxies], ?_⟩
  have hmod : ((out.headD []).length % P = 0) := by
    cases out with
    | nil => simp
    | cons r rest =>
      have hr : r.length = C * P := hrow r (by simp)
      simp [hr, Nat.mul_mod_left]
  have hquot : (out.headD []).length / P = C ∨ out = [] := by
    cases out with
    | nil => exact Or.inr rfl
    | cons r rest =>
      have hr : r.length = C * P := hrow r (by simp)
      exact Or.inl (by simp [hr, Nat.mul_div_cancel C hP0])
  refine ⟨out.map fun row =>
      (viewRow ((out.headD []).length / P) P row).map (proxySum exp),
    ?_, by simp, ?_, ?_⟩
  · unfold reduce_proxies
    rw [if_neg hP1, if_pos hmod]
  · intro row hmem
    obtain ⟨row0, _, hrw⟩ := List.mem_map.mp hmem
    rcases hquot with hq | hq
    · rw [← hrw, hq]
      simp [viewRow]
    · subst hq
      simp at hmem
  · intro i c hi hc
    rcases hquot with hq | hq
    · simp only [hq]
      have hgd : (out.map fun row =>
          (viewRow C P row).map (proxySum exp)).getD i [] =
          (viewRow C P (out.getD i [])).map (proxySum exp) := by
        rw [List.getD_eq_getElem _ [] (by simpa using hi), List.getElem_map,
          List.getD_eq_getElem _ [] hi]
      rw [hgd]
      have hmem : out.getD i [] ∈ out := by
        rw [List.getD_eq_getElem _ [] hi]
        exact List.getElem_mem hi
      have hlen : (out.getD i []).length = C * P := hrow _ hmem
      have hseg : c * P + P ≤ (out.getD i []).length := by
        rw [hlen, show c * P + P = (c + 1) * P by ring]
        exact mul_le_mul_right' (by omega) P
      have hcv : c < (viewRow C P (out.getD i [])).length := by simp [viewRow, hc]
      rw [List.getD_eq_getElem _ 0 (by simpa using hcv), List.getElem_map]
      have hview : (viewRow C P (out.getD i []))[c] =
          ((out.getD i []).drop (c * P)).take P := by
        simp [viewRow]
      rw [hview, segment_eq_map_range _ _ _ hseg]
      rfl
    · subst hq
      simp at hi

/-- Witness for C6 at one row of two classes with two proxies each. -/
theorem C6_reduce_proxies_formula_witness :
    reduce_proxies (fun x : ℚ => x) 1 [[1, 2, 3, 4]] = some [[1, 2, 3, 4]] ∧
    ∃ res, reduce_proxies (fun x : ℚ => x) 2 [[1, 2, 3, 4]] = some res ∧
      res.length = [[(1 : ℚ), 2, 3, 4]].length ∧
      (∀ row ∈ res, row.length = 2) ∧
      ∀ i c, i < [[(1 : ℚ), 2, 3, 4]].length → c < 2 →
        (res.getD i []).getD c 0 =
          (List.zipWith (· * ·)
            (F.softmaxRow (fun x : ℚ => x) ((List.range 2).map fun p =>
              ([[(1 : ℚ), 2, 3, 4]].getD i []).getD (c * 2 + p) 0))
            ((List.range 2).map fun p =>
              ([[(1 : ℚ), 2, 3, 4]].getD i []).getD (c * 2 + p) 0)).sum :=
  C6_reduce_proxies_formula (fun x : ℚ => x) [[1, 2, 3, 4]] 2 2
    (by norm_num) (by decide)

/-! ## Lemmas about SimpleContinualLinear -/

lemma headSD_freezeHead (h : Head α) : headSD (freezeHead h) = headSD h := by
  cases h with
  | mk norm fc => cases norm <;> simp [headSD, freezeHead]

lemma update_destruct (s : SimpleContinualLinear α) (c : ℕ) (fo : Bool)
    (fuel : ℕ) (nd : α → α → ℕ → ℕ → ℕ → α) (s2 : SimpleContinualLinear α)
    (h : s.update c fo fuel nd = some s2) :
    ∃ w, trunc_normal_ fuel nd 0 (1 / 50) (-2) 2 c s.embed_dim = some w ∧
      s2 = { s with heads :=
        (if fo then s.heads.map freezeHead else s.heads) ++
          [{ norm := if s.with_norm then some (freshLN s.embed_dim) else none,
             fc := { weight := w, bias := List.replicate c 0,
                     weightRG := true, biasRG := true } }] } := by
  simp only [SimpleContinualLinear.update, freshHead, Option.map_map] at h
  obtain ⟨w, hw, hs2⟩ := Option.map_eq_some'.mp h
  exact ⟨w, hw, hs2.symm⟩

/-- C2: `update` leaves the values of every pre-existing head unchanged;
with `freeze_old = true` it clears their `requires_grad` flags and with
`freeze_old = false` it leaves the old heads entirely untouched; the
appended head has a truncated-normal weight (mean 0, std 0.02, bounds
`[-2, 2]`), a zero bias, and trainable parameters. -/
theorem C2_update_freezes_old_and_appends_fresh (s : SimpleContinualLinear α)
    (c : ℕ) (fo : Bool) (fuel : ℕ) (nd : α → α → ℕ → ℕ → ℕ → α)
    (s2 : SimpleContinualLinear α) (h : s.update c fo fuel nd = some s2) :
    (s2.heads.take s.heads.length).map headSD = s.heads.map headSD ∧
    (fo = true → ∀ h2 ∈ s2.heads.take s.heads.length,
      h2.fc.weightRG = false ∧ h2.fc.biasRG = false ∧
      ∀ ln, h2.norm = some ln → ln.weightRG = false ∧ ln.biasRG = false) ∧
    (fo = false → s2.heads.take s.heads.length = s.heads) ∧
    ∃ w, trunc_normal_ fuel nd 0 (1 / 50) (-2) 2 c s.embed_dim = some w ∧
      s2.heads.getLast? = some
        { norm := if s.with_norm then some (freshLN s.embed_dim) else none,
          fc := { weight := w, bias := List.replicate c 0,
                  weightRG := true, biasRG := true } } := by
  obtain ⟨w, hw, hs2⟩ := update_destruct s c fo fuel nd s2 h
  subst hs2
  refine ⟨?_, ?_, ?_, w, hw, ?_⟩
  · cases fo with
    | false => rw [if_neg (by simp), List.take_left]
    | true =>
      rw [if_pos rfl,
        show s.heads.length = (s.heads.map freezeHead).length by simp,
        List.take_left, List.map_map]
      exact List.map_congr_left fun a _ => headSD_freezeHead a
  · intro hfo h2 hmem
    subst hfo
    rw [if_pos rfl,
      show s.heads.length = (s.heads.map freezeHead).length by simp,
      List.take_left] at hmem
    obtain ⟨h0, _, hh0⟩ := List.mem_map.mp hmem
    subst hh0
    refine ⟨rfl, rfl, ?_⟩
    intro ln hln
    cases hnorm : h0.norm with
    | none => simp [freezeHead, hnorm] at hln
    | some ln0 =>
      simp [freezeHead, hnorm] at hln
      subst hln
      exact ⟨rfl, rfl⟩
  · intro hfo
    subst hfo
    rw [if_neg (by simp), List.take_left]
  · cases fo <;> simp

/-- Concrete one-head module over the rationals, used as a witness input. -/
def exC2s : SimpleContinualLinear ℚ :=
  ⟨1, false, false, [⟨none, ⟨[[5]], [7], true, true⟩⟩], none⟩

/-- The module `exC2s` after one frozen update with a zero draw stream. -/
def exC2s2 : SimpleContinualLinear ℚ :=
  ⟨1, false, false, [⟨none, ⟨[[5]], [7], false, false⟩⟩,
    ⟨none, ⟨[[0]], [0], true, true⟩⟩], none⟩

/-- Witness for C2 on a one-head module over the rationals. -/
theorem C2_update_freezes_old_and_appends_fresh_witness :
    (exC2s2.heads.take exC2s.heads.length).map headSD =
      exC2s.heads.map headSD :=
  (C2_update_freezes_old_and_appends_fresh exC2s 1 true 1
    (fun _ _ _ _ _ => 0) exC2s2 (by decide)).1

lemma recall_eq_load (s : SimpleContinualLinear α) (sd : List (HeadSD α))
    (h : s.old_state_dict = some sd) : s.recall = loadStateDict s sd := by
  unfold SimpleContinualLinear.recall
  rw [h]

lemma headSD_loadHead (h : Head α) (sd : HeadSD α)
    (hc : headCompat h sd = true) : headSD (loadHead h sd) = sd := by
  cases h with
  | mk norm fc =>
    cases sd with
    | mk sdnorm sdfc =>
      cases sdfc with
      | mk sdw sdb =>
        cases norm with
        | none =>
          cases sdnorm with
          | none => simp [headSD, loadHead]
          | some lnsd => simp [headCompat] at hc
        | some ln =>
          cases sdnorm with
          | none => simp [headCompat] at hc
          | some lnsd =>
            cases lnsd with
            | mk lw lb => simp [headSD, loadHead]

lemma sclCompat_cons (h0 : Head α) (t : List (Head α)) (sd0 : HeadSD α)
    (sdt : List (HeadSD α)) (h : sclCompat (h0 :: t) (sd0 :: sdt) = true) :
    headCompat h0 sd0 = true ∧ sclCompat t sdt = true := by
  simp only [sclCompat, List.zip_cons_cons, List.all_cons, Bool.and_eq_true,
    decide_eq_true_eq, List.length_cons] at h ⊢
  exact ⟨h.2.1, by omega, h.2.2⟩

lemma load_roundtrip : ∀ (heads : List (Head α)) (sd : List (HeadSD α)),
    sclCompat heads sd = true →
    ((List.zip heads sd).map fun p => headSD (loadHead p.1 p.2)) = sd := by
  intro heads
  induction heads with
  | nil =>
    intro sd h
    cases sd with
    | nil => rfl
    | cons sd0 sdt => simp [sclCompat] at h
  | cons h0 t ih =>
    intro sd h
    cases sd with
    | nil => simp [sclCompat] at h
    | cons sd0 sdt =>
      obtain ⟨h1, h2⟩ := sclCompat_cons h0 t sd0 sdt h
      simp only [List.zip_cons_cons, List.map_cons]
      rw [headSD_loadHead h0 sd0 h1, ih sdt h2]

/-- C3: after `backup()`, mutating the parameter values without changing the
module structure and then calling `recall()` restores every parameter to its
value at backup time; the snapshot is a value unaffected by the mutation.
`s2` is the mutated module: same snapshot, structurally compatible heads. -/
theorem C3_backup_recall_roundtrip (s s2 : SimpleContinualLinear α)
    (hsd : s2.old_state_dict = some (stateDict s))
    (hcompat : sclCompat s2.heads (stateDict s) = true) :
    (SimpleContinualLinear.backup s).old_state_dict = some (stateDict s) ∧
    ∃ s3, s2.recall = some s3 ∧ stateDict s3 = stateDict s := by
  refine ⟨rfl, ?_⟩
  rw [recall_eq_load s2 (stateDict s) hsd]
  unfold loadStateDict
  rw [if_pos hcompat]
  refine ⟨_, rfl, ?_⟩
  simp only [stateDict, List.map_map]
  exact load_roundtrip s2.heads (stateDict s) hcompat

/-- The witness module for C3 before any mutation. -/
def exC3s : SimpleContinualLinear ℚ :=
  ⟨1, false, false, [⟨none, ⟨[[5]], [7], true, true⟩⟩], none⟩

/-- The witness module for C3 after backup and a value mutation. -/
def exC3s2 : SimpleContinualLinear ℚ :=
  ⟨1, false, false, [⟨none, ⟨[[9]], [3], true, true⟩⟩],
    some [⟨none, ⟨[[5]], [7]⟩⟩]⟩

/-- Witness for C3: recalling the mutated module restores the snapshot. -/
theorem C3_backup_recall_roundtrip_witness :
    (SimpleContinualLinear.backup exC3s).old_state_dict =
      some (stateDict exC3s) ∧
    ∃ s3, exC3s2.recall = some s3 ∧ stateDict s3 = stateDict exC3s :=
  C3_backup_recall_roundtrip exC3s exC3s2 (by decide) (by decide)

/-- C8: calling `update` after `backup` and then `recall` fails: the strict
`load_state_dict` rejects the snapshot, which lacks entries for the freshly
appended head. -/
theorem C8_recall_after_update_fails (s : SimpleContinualLinear α) (c : ℕ)
    (fo : Bool) (fuel : ℕ) (nd : α → α → ℕ → ℕ → ℕ → α)
    (s2 : SimpleContinualLinear α)
    (h : (SimpleContinualLinear.backup s).update c fo fuel nd = some s2) :
    s2.recall = none := by
  obtain ⟨w, hw, hs2⟩ :=
    update_destruct (SimpleContinualLinear.backup s) c fo fuel nd s2 h
  have hheads : s2.heads.length = s.heads.length + 1 := by
    rw [hs2]
    cases fo <;> simp [SimpleContinualLinear.backup]
  have hsd2 : s2.old_state_dict = some (stateDict s) := by
    rw [hs2]
    rfl
  have h1 : sclCompat s2.heads (stateDict s) = false := by
    unfold sclCompat
    have hne : ¬ (s2.heads.length = (stateDict s).length) := by
      rw [hheads]
      simp [stateDict]
    simp [hne]
  rw [recall_eq_load s2 (stateDict s) hsd2]
  unfold loadStateDict
  rw [if_neg (by simp [h1])]

/-- Witness for C8: a concrete backup-update-recall run that fails. -/
theorem C8_recall_after_update_fails_witness :
    SimpleContinualLinear.recall
      (⟨1, false, false, [⟨none, ⟨[[5]], [7], false, false⟩⟩,
        ⟨none, ⟨[[0]], [0], true, true⟩⟩],
        some [⟨none, ⟨[[5]], [7]⟩⟩]⟩ : SimpleContinualLinear ℚ) = none :=
  C8_recall_after_update_fails
    ⟨1, false, false, [⟨none, ⟨[[5]], [7], true, true⟩⟩], none⟩ 1 true 1
    (fun _ _ _ _ _ => 0) _ (by decide)

lemma freshHead_shape (fuel : ℕ) (nd : α → α → ℕ → ℕ → ℕ → α) (wn : Bool)
    (ed c : ℕ) (hh : Head α) (h : freshHead fuel nd wn ed c = some hh) :
    hh.fc.weight.length = c ∧ hh.fc.bias.length = c := by
  simp only [freshHead] at h
  obtain ⟨w, hw, hhh⟩ := Option.map_eq_some'.mp h
  have hlen := (trunc_normal_some_spec fuel nd 0 (1 / 50) (-2) 2 c ed w hw).1
  subst hhh
  simp [hlen]

lemma update_shapes (s : SimpleContinualLinear α) (c : ℕ) (fo : Bool)
    (fuel : ℕ) (nd : α → α → ℕ → ℕ → ℕ → α) (s2 : SimpleContinualLinear α)
    (h : s.update c fo fuel nd = some s2) :
    s2.heads.map (fun hh => hh.fc.weight.length) =
      s.heads.map (fun hh => hh.fc.weight.length) ++ [c] ∧
    s2.heads.map (fun hh => min hh.fc.weight.length hh.fc.bias.length) =
      s.heads.map (fun hh => min hh.fc.weight.length hh.fc.bias.length) ++
        [c] := by
  obtain ⟨w, hw, hs2⟩ := update_destruct s c fo fuel nd s2 h
  have hwl : w.length = c :=
    (trunc_normal_some_spec fuel nd 0 (1 / 50) (-2) 2 c s.embed_dim w hw).1
  rw [hs2]
  constructor <;>
    (cases fo <;> simp [freezeHead, hwl, List.map_map, Function.comp_def])

lemma applyUpdates_shapes (fuel : ℕ) (nd : α → α → ℕ → ℕ → ℕ → α) :
    ∀ (ups : List (ℕ × Bool)) (s s2 : SimpleContinualLinear α),
    applyUpdates fuel nd s ups = some s2 →
    s2.heads.map (fun hh => hh.fc.weight.length) =
      s.heads.map (fun hh => hh.fc.weight.length) ++ ups.map Prod.fst ∧
    s2.heads.map (fun hh => min hh.fc.weight.length hh.fc.bias.length) =
      s.heads.map (fun hh => min hh.fc.weight.length hh.fc.bias.length) ++
        ups.map Prod.fst := by
  intro ups
  induction ups with
  | nil =>
    intro s s2 h
    simp only [applyUpdates] at h
    cases Option.some.inj h
    simp
  | cons u rest ih =>
    intro s s2 h
    obtain ⟨c, fo⟩ := u
    simp only [applyUpdates] at h
    obtain ⟨s1, hs1, hrest⟩ := Option.bind_eq_some.mp h
    obtain ⟨e1, e2⟩ := update_shapes s c fo fuel nd s1 hs1
    obtain ⟨e3, e4⟩ := ih s1 s2 hrest
    rw [e3, e1, e4, e2]
    simp

lemma init_destruct (embed c0 : ℕ) (fe wn : Bool) (fuel : ℕ)
    (nd : α → α → ℕ → ℕ → ℕ → α) (s0 : SimpleContinualLinear α)
    (h : SimpleContinualLinear.init embed c0 fe wn fuel nd = some s0) :
    ∃ hh, freshHead fuel nd wn embed c0 = some hh ∧
      s0 = ⟨embed, fe, wn, [hh], none⟩ := by
  simp only [SimpleContinualLinear.init] at h
  obtain ⟨hh, h1, h2⟩ := Option.map_eq_some'.mp h
  exact ⟨hh, h1, h2.symm⟩

lemma headForward_length (sqrt : α → α) (h : Head α) (x : List (List α)) :
    (headForward sqrt h x).length = x.length := by
  cases hn : h.norm <;> simp [headForward, F.linear, hn]

lemma headForward_getD_length (sqrt : α → α) (h : Head α) (x : List (List α))
    (i : ℕ) (hi : i < x.length) :
    ((headForward sqrt h x).getD i []).length =
      min h.fc.weight.length h.fc.bias.length := by
  have hl : i < (headForward sqrt h x).length := by
    rw [headForward_length]
    exact hi
  rw [List.getD_eq_getElem _ [] hl]
  cases hn : h.norm with
  | none => simp [headForward, F.linear, hn]
  | some ln => simp [headForward, F.linear, hn]

lemma catDim1_length : ∀ (mats : List (List (List α))) (bs : ℕ),
    mats ≠ [] → (∀ m ∈ mats, m.length = bs) → (catDim1 mats).length = bs := by
  intro mats
  induction mats with
  | nil => intro bs hne _; exact absurd rfl hne
  | cons t ts ih =>
    intro bs _ hall
    cases ts with
    | nil => simpa [catDim1] using hall t (by simp)
    | cons t2 ts2 =>
      have h2 : (catDim1 (t2 :: ts2)).length = bs :=
        ih bs (by simp) fun m hm => hall m (by simp [hm])
      have h1 : t.length = bs := hall t (by simp)
      simp [catDim1, h1, h2]

lemma catDim1_getD : ∀ (mats : List (List (List α))) (bs i : ℕ), i < bs →
    (∀ m ∈ mats, m.length = bs) →
    (catDim1 mats).getD i [] = (mats.map fun m => m.getD i []).flatten := by
  intro mats
  induction mats with
  | nil => intro bs i _ _; simp [catDim1]
  | cons t ts ih =>
    intro bs i hi hall
    cases ts with
    | nil => simp [catDim1]
    | cons t2 ts2 =>
      have hrest : (catDim1 (t2 :: ts2)).length = bs :=
        catDim1_length (t2 :: ts2) bs (by simp)
          fun m hm => hall m (by simp [hm])
      have ht : t.length = bs := hall t (by simp)
      have hcat : (catDim1 (t :: t2 :: ts2)) =
          List.zipWith (· ++ ·) t (catDim1 (t2 :: ts2)) := by
        simp [catDim1]
      rw [hcat]
      have hzl : i < (List.zipWith (· ++ ·) t (catDim1 (t2 :: ts2))).length := by
        simp [List.length_zipWith, ht, hrest, hi]
      rw [List.getD_eq_getElem _ [] hzl, List.getElem_zipWith]
      rw [List.map_cons, List.flatten_cons,
        ← ih bs i hi fun m hm => hall m (by simp [hm])]
      rw [List.getD_eq_getElem t [] (by omega : i < t.length),
        List.getD_eq_getElem _ [] (by omega : i < (catDim1 (t2 :: ts2)).length)]

/-- C1: a module built with initial class count `c0` and grown by the
successive update counts in `ups` holds `k + 1` heads whose output widths
are `c0, c1, ..., ck` in creation order, and `forward` returns logits with
one row per input row, each row being the concatenation of the per-head
outputs oldest head first, of total width `c0 + c1 + ... + ck`. -/
theorem C1_update_grows_and_forward_concats (embed c0 : ℕ) (fe wn : Bool)
    (fuel : ℕ) (nd : α → α → ℕ → ℕ → ℕ → α) (ups : List (ℕ × Bool))
    (s0 s : SimpleContinualLinear α)
    (h0 : SimpleContinualLinear.init embed c0 fe wn fuel nd = some s0)
    (h1 : applyUpdates fuel nd s0 ups = some s)
    (sqrt : α → α) (xs : ℕ → List (List α)) (x : List (List α)) (bs : ℕ)
    (hbs : ∀ ti, (if s.feat_expand then xs ti else x).length = bs) :
    s.heads.length = ups.length + 1 ∧
    s.heads.map (fun hh => hh.fc.weight.length) = c0 :: ups.map Prod.fst ∧
    (SimpleContinualLinear.forward sqrt s xs x).length = bs ∧
    ∀ i, i < bs →
      (SimpleContinualLinear.forward sqrt s xs x).getD i [] =
        (s.heads.enum.map fun p =>
          (headForward sqrt p.2
            (if s.feat_expand then xs p.1 else x)).getD i []).flatten ∧
      ((SimpleContinualLinear.forward sqrt s xs x).getD i []).length =
        c0 + (ups.map Prod.fst).sum := by
  obtain ⟨hh, hfh, hs0⟩ := init_destruct embed c0 fe wn fuel nd s0 h0
  obtain ⟨hwc, hbc⟩ := freshHead_shape fuel nd wn embed c0 hh hfh
  obtain ⟨e1, e2⟩ := applyUpdates_shapes fuel nd ups s0 s h1
  rw [hs0] at e1 e2
  simp only [List.map_cons, List.map_nil, hwc, hbc, Nat.min_self,
    List.singleton_append] at e1 e2
  have hlen : s.heads.length = ups.length + 1 := by
    have := congrArg List.length e1
    simpa using this
  have hne : s.heads.enum.map (fun p =>
      headForward sqrt p.2 (if s.feat_expand then xs p.1 else x)) ≠ [] := by
    intro hc
    have := congrArg List.length hc
    simp [hlen] at this
  have hmats : ∀ m ∈ s.heads.enum.map (fun p =>
      headForward sqrt p.2 (if s.feat_expand then xs p.1 else x)),
      m.length = bs := by
    intro m hm
    obtain ⟨p, _, hp⟩ := List.mem_map.mp hm
    rw [← hp, headForward_length]
    exact hbs p.1
  refine ⟨hlen, e1, catDim1_length _ bs hne hmats, ?_⟩
  intro i hi
  have hget := catDim1_getD (s.heads.enum.map fun p =>
    headForward sqrt p.2 (if s.feat_expand then xs p.1 else x)) bs i hi hmats
  have hflat : ((s.heads.enum.map fun p =>
      headForward sqrt p.2 (if s.feat_expand then xs p.1 else x)).map
        fun m => m.getD i []) =
      s.heads.enum.map fun p =>
        (headForward sqrt p.2 (if s.feat_expand then xs p.1 else x)).getD
          i [] := by
    rw [List.map_map]
    rfl
  constructor
  · rw [show SimpleContinualLinear.forward sqrt s xs x =
      catDim1 (s.heads.enum.map fun p =>
        headForward sqrt p.2 (if s.feat_expand then xs p.1 else x)) from rfl,
      hget, hflat]
  · rw [show SimpleContinualLinear.forward sqrt s xs x =
      catDim1 (s.heads.enum.map fun p =>
        headForward sqrt p.2 (if s.feat_expand then xs p.1 else x)) from rfl,
      hget, hflat, List.length_flatten, List.map_map]
    have hcong : s.heads.enum.map (List.length ∘ fun p =>
        (headForward sqrt p.2
          (if s.feat_expand then xs p.1 else x)).getD i []) =
        s.heads.enum.map fun p =>
          min p.2.fc.weight.length p.2.fc.bias.length := by
      apply List.map_congr_left
      intro p _
      have : i < (if s.feat_expand then xs p.1 else x).length := by
        rw [hbs p.1]
        exact hi
      exact headForward_getD_length sqrt p.2 _ i this
    rw [hcong, enum_map_snd_comp s.heads
      (fun h2 => min h2.fc.weight.length h2.fc.bias.length), e2]
    simp

/-- Witness module for C1 as produced by `init` with a zero draw stream. -/
def exC1s0 : SimpleContinualLinear ℚ :=
  ⟨2, false, false, [⟨none, ⟨[[0, 0]], [0], true, true⟩⟩], none⟩

/-- Witness module for C1 after one frozen update of two classes. -/
def exC1s : SimpleContinualLinear ℚ :=
  ⟨2, false, false, [⟨none, ⟨[[0, 0]], [0], false, false⟩⟩,
    ⟨none, ⟨[[0, 0], [0, 0]], [0, 0], true, true⟩⟩], none⟩

/-- Witness for C1: one initial class, one update of two classes, a single
input row of width two, over the rationals. -/
theorem C1_update_grows_and_forward_concats_witness :
    (exC1s.heads.length = [(2, true)].length + 1 ∧
     exC1s.heads.map (fun hh => hh.fc.weight.length) =
       1 :: [(2, true)].map Prod.fst ∧
     (SimpleContinualLinear.forward id exC1s (fun _ => [[1, 1]])
       [[1, 1]]).length = 1 ∧
     ∀ i, i < 1 →
       (SimpleContinualLinear.forward id exC1s (fun _ => [[1, 1]])
         [[1, 1]]).getD i [] =
         (exC1s.heads.enum.map fun p =>
           (headForward id p.2
             (if exC1s.feat_expand then [[(1 : ℚ), 1]]
              else [[1, 1]])).getD i []).flatten ∧
       ((SimpleContinualLinear.forward id exC1s (fun _ => [[1, 1]])
         [[1, 1]]).getD i []).length =
         1 + ([(2, true)].map Prod.fst).sum) :=
  C1_update_grows_and_forward_concats 2 1 false false 1
    (fun _ _ _ _ _ => 0) [(2, true)] exC1s0 exC1s (by decide) (by decide)
    id (fun _ => [[1, 1]]) [[1, 1]] 1 (fun _ => rfl)

/-! ## Lemmas about CosineLinear and SplitCosineLinear -/

/-- Matrix of cosine similarities as the spec reads it: the dot product of
each L2-normalized input row with each L2-normalized weight row. -/
def cosSimMatrix (sqrt : α → α) (x w : List (List α)) : List (List α) :=
  x.map fun xi => w.map fun wj =>
    dot (F.normalizeRow sqrt xi) (F.normalizeRow sqrt wj)

lemma linear_normalize_eq_cosSim (sqrt : α → α) (x w : List (List α)) :
    F.linear (F.normalize sqrt x) (F.normalize sqrt w) none =
      cosSimMatrix sqrt x w := by
  simp [F.linear, F.normalize, cosSimMatrix, List.map_map]

lemma sumSq_nonneg (r : List ℝ) : 0 ≤ (r.map fun u => u ^ 2).sum := by
  apply List.sum_nonneg
  intro a ha
  obtain ⟨u, _, hu⟩ := List.mem_map.mp ha
  rw [← hu]
  positivity

lemma normalizeRow_sumSq_le_one (r : List ℝ) :
    ((F.normalizeRow Real.sqrt r).map fun u => u ^ 2).sum ≤ 1 := by
  have hS0 : 0 ≤ (r.map fun u => u ^ 2).sum := sumSq_nonneg r
  have hM0 : (0 : ℝ) <
      max (Real.sqrt ((r.map fun u => u ^ 2).sum)) (1 / 10 ^ 12) :=
    lt_of_lt_of_le (by norm_num) (le_max_right _ _)
  have hMS : (r.map fun u => u ^ 2).sum ≤
      (max (Real.sqrt ((r.map fun u => u ^ 2).sum)) (1 / 10 ^ 12)) ^ 2 := by
    have h1 : Real.sqrt ((r.map fun u => u ^ 2).sum) ≤
        max (Real.sqrt ((r.map fun u => u ^ 2).sum)) (1 / 10 ^ 12) :=
      le_max_left _ _
    have h2 := Real.sq_sqrt hS0
    nlinarith [Real.sqrt_nonneg ((r.map fun u => u ^ 2).sum)]
  have hrw : ((F.normalizeRow Real.sqrt r).map fun u => u ^ 2).sum =
      (r.map fun u => u ^ 2).sum *
        ((max (Real.sqrt ((r.map fun u => u ^ 2).sum)) (1 / 10 ^ 12)) ^ 2)⁻¹ := by
    simp only [F.normalizeRow, List.map_map, Function.comp_def]
    rw [show (fun t : ℝ => (t /
        max (Real.sqrt ((r.map fun u => u ^ 2).sum)) (1 / 10 ^ 12)) ^ 2) =
        fun t : ℝ => t ^ 2 *
          ((max (Real.sqrt ((r.map fun u => u ^ 2).sum)) (1 / 10 ^ 12)) ^ 2)⁻¹
      from by funext t; rw [div_pow, div_eq_mul_inv]]
    rw [List.sum_map_mul_right]
  rw [hrw]
  rw [← div_eq_mul_inv, div_le_one (by positivity)]
  exact hMS

lemma dot_le_half (u : List ℝ) : ∀ v : List ℝ,
    dot u v ≤ ((u.map fun t => t ^ 2).sum + (v.map fun t => t ^ 2).sum) / 2 := by
  induction u with
  | nil =>
    intro v
    have := sumSq_nonneg v
    simp only [dot, List.zipWith_nil_left, List.sum_nil, List.map_nil]
    linarith
  | cons a u ih =>
    intro v
    cases v with
    | nil =>
      have := sumSq_nonneg (a :: u)
      simp only [dot, List.zipWith_nil_right, List.sum_nil, List.map_nil]
      linarith
    | cons b v =>
      have h2 := ih v
      simp only [dot] at h2 ⊢
      simp only [List.zipWith_cons_cons, List.sum_cons, List.map_cons]
      have h1 : a * b ≤ (a ^ 2 + b ^ 2) / 2 := by nlinarith [sq_nonneg (a - b)]
      linarith

lemma neg_half_le_dot (u : List ℝ) : ∀ v : List ℝ,
    -(((u.map fun t => t ^ 2).sum + (v.map fun t => t ^ 2).sum) / 2) ≤
      dot u v := by
  induction u with
  | nil =>
    intro v
    have := sumSq_nonneg v
    simp only [dot, List.zipWith_nil_left, List.sum_nil, List.map_nil]
    linarith
  | cons a u ih =>
    intro v
    cases v with
    | nil =>
      have := sumSq_nonneg (a :: u)
      simp only [dot, List.zipWith_nil_right, List.sum_nil, List.map_nil]
      linarith
    | cons b v =>
      have h2 := ih v
      simp only [dot] at h2 ⊢
      simp only [List.zipWith_cons_cons, List.sum_cons, List.map_cons]
      have h1 : -((a ^ 2 + b ^ 2) / 2) ≤ a * b := by
        nlinarith [sq_nonneg (a + b)]
      linarith

lemma cos_entry_bounds (xi wj : List ℝ) :
    -1 ≤ dot (F.normalizeRow Real.sqrt xi) (F.normalizeRow Real.sqrt wj) ∧
      dot (F.normalizeRow Real.sqrt xi) (F.normalizeRow Real.sqrt wj) ≤ 1 := by
  have h1 := normalizeRow_sumSq_le_one xi
  have h2 := normalizeRow_sumSq_le_one wj
  have h3 := dot_le_half (F.normalizeRow Real.sqrt xi)
    (F.normalizeRow Real.sqrt wj)
  have h4 := neg_half_le_dot (F.normalizeRow Real.sqrt xi)
    (F.normalizeRow Real.sqrt wj)
  have h5 := sumSq_nonneg (F.normalizeRow Real.sqrt xi)
  have h6 := sumSq_nonneg (F.normalizeRow Real.sqrt wj)
  constructor <;> linarith

/-- C4: with sigma present and `to_reduce = False`, `CosineLinear.forward`
returns sigma times the matrix of cosine similarities between the
L2-normalized input rows and the L2-normalized weight rows, and every entry
of the pre-sigma output lies in `[-1, 1]`; with `to_reduce = True` the
similarity matrix is proxy-reduced before the sigma scaling. -/
theorem C4_cosine_forward (exp : ℝ → ℝ) (m : CosineLinear ℝ) (σ : ℝ)
    (hσ : m.sigma = some σ) (x : List (List ℝ)) :
    (m.to_reduce = false →
      CosineLinear.forward Real.sqrt exp m x =
        some (scale σ (cosSimMatrix Real.sqrt x m.weight))) ∧
    (∀ row ∈ cosSimMatrix Real.sqrt x m.weight, ∀ e ∈ row,
      -1 ≤ e ∧ e ≤ 1) ∧
    (m.to_reduce = true →
      CosineLinear.forward Real.sqrt exp m x =
        (reduce_proxies exp m.nb_proxy
          (cosSimMatrix Real.sqrt x m.weight)).map (scale σ)) := by
  refine ⟨?_, ?_, ?_⟩
  · intro hto
    simp [CosineLinear.forward, hto, hσ, linear_normalize_eq_cosSim]
  · intro row hrow e he
    obtain ⟨xi, _, hxi⟩ := List.mem_map.mp hrow
    rw [← hxi] at he
    obtain ⟨wj, _, hwj⟩ := List.mem_map.mp he
    rw [← hwj]
    exact cos_entry_bounds xi wj
  · intro hto
    have hrw := linear_normalize_eq_cosSim Real.sqrt x m.weight
    cases hr : reduce_proxies exp m.nb_proxy
        (cosSimMatrix Real.sqrt x m.weight) with
    | none => simp [CosineLinear.forward, hto, hσ, hrw, hr]
    | some r => simp [CosineLinear.forward, hto, hσ, hrw, hr]

/-- The concrete cosine layer used by the C4 witness. -/
def exC4m : CosineLinear ℝ := ⟨2, 1, 1, false, [[1, 0]], some 1⟩

/-- Witness for C4 at a concrete layer and input over the reals. -/
theorem C4_cosine_forward_witness :
    (exC4m.to_reduce = false →
      CosineLinear.forward Real.sqrt (fun t => t) exC4m [[1, 0]] =
        some (scale 1 (cosSimMatrix Real.sqrt [[1, 0]] exC4m.weight))) ∧
    (∀ row ∈ cosSimMatrix Real.sqrt [[(1 : ℝ), 0]] exC4m.weight, ∀ e ∈ row,
      -1 ≤ e ∧ e ≤ 1) ∧
    (exC4m.to_reduce = true →
      CosineLinear.forward Real.sqrt (fun t => t) exC4m [[1, 0]] =
        (reduce_proxies (fun t => t) exC4m.nb_proxy
          (cosSimMatrix Real.sqrt [[1, 0]] exC4m.weight)).map (scale 1)) :=
  C4_cosine_forward (fun t => t) exC4m 1 rfl [[1, 0]]

lemma reduce_proxies_isSome (exp : α → α) (P : ℕ) (out : List (List α))
    (h : P ∣ (out.headD []).length) :
    ∃ r, reduce_proxies exp P out = some r := by
  by_cases hP1 : P = 1
  · exact ⟨out, by simp [reduce_proxies, hP1]⟩
  · refine ⟨out.map fun row =>
      (viewRow ((out.headD []).length / P) P row).map (proxySum exp), ?_⟩
    unfold reduce_proxies
    rw [if_neg hP1, if_pos (Nat.dvd_iff_mod_eq_zero.mp h)]

/-- C5: `SplitCosineLinear.forward` returns the proxy-reduced cosine scores
of `fc1` as `old_scores` and of `fc2` as `new_scores`, neither scaled by
sigma, and the logits are sigma times the proxy reduction of the
concatenation of the raw `fc1` and `fc2` scores, old-class columns first.
The hypotheses are the invariants the constructor establishes. -/
theorem C5_split_cosine_forward (sqrt exp : α → α) (m : SplitCosineLinear α)
    (σ : α) (x : List (List α))
    (h1 : m.fc1.to_reduce = false) (h2 : m.fc1.sigma = none)
    (h3 : m.fc2.to_reduce = false) (h4 : m.fc2.sigma = none)
    (h5 : m.sigma = some σ)
    (hq1 : m.nb_proxy ∣ m.fc1.weight.length)
    (hq2 : m.nb_proxy ∣ m.fc2.weight.length) :
    ∃ os ns red,
      reduce_proxies exp m.nb_proxy (cosSimMatrix sqrt x m.fc1.weight) =
        some os ∧
      reduce_proxies exp m.nb_proxy (cosSimMatrix sqrt x m.fc2.weight) =
        some ns ∧
      reduce_proxies exp m.nb_proxy
        (F.cat2 (cosSimMatrix sqrt x m.fc1.weight)
          (cosSimMatrix sqrt x m.fc2.weight)) = some red ∧
      SplitCosineLinear.forward sqrt exp m x =
        some ⟨os, ns, scale σ red⟩ := by
  have hfw1 : CosineLinear.forward sqrt exp m.fc1 x =
      some (cosSimMatrix sqrt x m.fc1.weight) := by
    simp [CosineLinear.forward, h1, h2, linear_normalize_eq_cosSim]
  have hfw2 : CosineLinear.forward sqrt exp m.fc2 x =
      some (cosSimMatrix sqrt x m.fc2.weight) := by
    simp [CosineLinear.forward, h3, h4, linear_normalize_eq_cosSim]
  have hd1 : m.nb_proxy ∣ ((cosSimMatrix sqrt x m.fc1.weight).headD []).length := by
    cases x with
    | nil => simp [cosSimMatrix]
    | cons xi xr => simpa [cosSimMatrix] using hq1
  have hd2 : m.nb_proxy ∣ ((cosSimMatrix sqrt x m.fc2.weight).headD []).length := by
    cases x with
    | nil => simp [cosSimMatrix]
    | cons xi xr => simpa [cosSimMatrix] using hq2
  have hdc : m.nb_proxy ∣
      ((F.cat2 (cosSimMatrix sqrt x m.fc1.weight)
        (cosSimMatrix sqrt x m.fc2.weight)).headD []).length := by
    cases x with
    | nil => simp [cosSimMatrix, F.cat2]
    | cons xi xr =>
      simpa [cosSimMatrix, F.cat2] using Dvd.dvd.add hq1 hq2
  obtain ⟨os, hos⟩ := reduce_proxies_isSome exp m.nb_proxy _ hd1
  obtain ⟨ns, hns⟩ := reduce_proxies_isSome exp m.nb_proxy _ hd2
  obtain ⟨red, hred⟩ := reduce_proxies_isSome exp m.nb_proxy _ hdc
  refine ⟨os, ns, red, hos, hns, hred, ?_⟩
  simp [SplitCosineLinear.forward, hfw1, hfw2, hos, hns, hred, h5]

/-- The concrete split cosine layer used by the C5 witness. -/
def exC5m : SplitCosineLinear ℚ :=
  ⟨2, 2, 1, ⟨2, 1, 1, false, [[1, 0]], none⟩,
    ⟨2, 1, 1, false, [[0, 1]], none⟩, some 1⟩

/-- Witness for C5 at a concrete layer and input over the rationals. -/
theorem C5_split_cosine_forward_witness :
    ∃ os ns red,
      reduce_proxies (fun t : ℚ => t) exC5m.nb_proxy
        (cosSimMatrix (fun t => t) [[1, 1]] exC5m.fc1.weight) = some os ∧
      reduce_proxies (fun t : ℚ => t) exC5m.nb_proxy
        (cosSimMatrix (fun t => t) [[1, 1]] exC5m.fc2.weight) = some ns ∧
      reduce_proxies (fun t : ℚ => t) exC5m.nb_proxy
        (F.cat2 (cosSimMatrix (fun t => t) [[1, 1]] exC5m.fc1.weight)
          (cosSimMatrix (fun t => t) [[1, 1]] exC5m.fc2.weight)) =
        some red ∧
      SplitCosineLinear.forward (fun t => t) (fun t => t) exC5m [[1, 1]] =
        some ⟨os, ns, scale 1 red⟩ :=
  C5_split_cosine_forward (fun t => t) (fun t => t) exC5m 1 [[1, 1]]
    rfl rfl rfl rfl rfl (by decide) (by decide)

end LinearsSpec
